import Mathlib

/-!
# UdpCommandExecutor

A shallow embedding of `src/udp_command_executor.cpp` and the properties of its
frame decoder (`parseMessage`), its sequence gate (`lastTimestampProcessed_`)
and its execute-and-log step (the body of the `while (true)` loop of `run`).

Conventions of the embedding:

* a `std::string` is a `List Char` (one `Char` per C++ `char`);
* `std::string::npos` and a failed `parseMessage` are `none`;
* `long long` values are `Int`; the only place where the 64-bit range matters is
  `std::stoll`, which reports overflow instead of wrapping;
* the shell (`popen`) and the file system (`std::ofstream`) are not part of the
  program: each loop iteration receives what they answer in an `Env`.
-/

namespace UdpCmd

/-- A `std::string`: a finite sequence of `char`s. -/
abbrev Str := List Char

/-! ## Library functions used by the source -/

/-- Loop of `std::string::find`: the first index `i`, counted from the start of the whole
string, at which `pat` starts, where `s` is the text that remains from index `i` on. -/
def findAux (pat : Str) : Str → Nat → Option Nat
  | [], i => if pat.isPrefixOf [] then some i else none
  | c :: t, i => if pat.isPrefixOf (c :: t) then some i else findAux pat t (i + 1)

/-- The call `s.find(pat, pos)` of `std::string`: the lowest index `i ≥ pos` at which `pat`
occurs in `s`, and `none` (for `npos`) when there is none or `pos` is beyond the end. -/
def find (s pat : Str) (pos : Nat) : Option Nat :=
  if pos ≤ s.length then findAux pat (s.drop pos) pos else none

/-- The call `s.substr(pos, n)` of `std::string` for `pos ≤ s.size()` (the only way
`parseMessage` calls it): at most `n` characters starting at index `pos`. -/
def substr (s : Str) (pos n : Nat) : Str := (s.drop pos).take n

/-- The function `isspace` of the "C" locale (the program never changes the locale). -/
def isspace (c : Char) : Bool :=
  c = ' ' ∨ c = '\t' ∨ c = '\n' ∨ c = '\x0b' ∨ c = '\x0c' ∨ c = '\r'

/-- The function `isdigit`. -/
def isdigit (c : Char) : Bool := c.isDigit

/-- Value of a run of decimal digits read left to right, starting from the accumulator. -/
def digitsValue (ds : Str) : Nat := ds.foldl (fun a c => 10 * a + (c.toNat - 48)) 0

/-- Sign recognised by `strtoll` at the head of the text: whether it is a minus, and the
text after the optional sign. -/
def splitSign : Str → Bool × Str
  | '-' :: t => (true, t)
  | '+' :: t => (false, t)
  | s => (false, s)

/-- Lowest value of `long long`. -/
def LLONG_MIN : Int := -(2 ^ 63)

/-- Highest value of `long long`. -/
def LLONG_MAX : Int := 2 ^ 63 - 1

/-- The call `std::stoll(s)` (base 10, no end-position argument), which is `strtoll` plus
the two exceptions: leading `isspace` characters are skipped, one optional sign is read,
then the longest run of decimal digits; whatever follows the digits is ignored. An empty
digit run throws `std::invalid_argument` and a value outside `long long` throws
`std::out_of_range`; both are `none` here, as `parseMessage` catches them alike. -/
def stoll (s : Str) : Option Int :=
  let body := splitSign (s.dropWhile isspace)
  let ds := body.2.takeWhile isdigit
  if ds = [] then none
  else
    let v : Int := if body.1 then -(digitsValue ds : Int) else (digitsValue ds : Int)
    if LLONG_MIN ≤ v ∧ v ≤ LLONG_MAX then some v else none

/-- Decimal text of a `long long` as `operator<<` of a stream writes it in the classic
locale: the digits, most significant first, after a minus sign for a negative value. -/
def decimal : Int → Str
  | Int.ofNat n => Nat.toDigits 10 n
  | Int.negSucc n => '-' :: Nat.toDigits 10 (n + 1)

/-! ## The class -/

/-- The data members of `class UdpCommandExecutor`. -/
structure UdpCommandExecutor where
  port_ : Int
  delimiter_ : Str
  endMarker_ : Str
  logFilePath_ : Str
  sockfd_ : Int
  lastTimestampProcessed_ : Int
  deriving DecidableEq, Repr

/-- The constructor: the socket is closed (`-1`) and the watermark is the sentinel `-1`. -/
def UdpCommandExecutor.new (port : Int) (delimiter endMarker logFilePath : Str) :
    UdpCommandExecutor :=
  { port_ := port
    delimiter_ := delimiter
    endMarker_ := endMarker
    logFilePath_ := logFilePath
    sockfd_ := -1
    lastTimestampProcessed_ := -1 }

/-- The executor that `main` constructs (these are also the constructor's defaults). -/
def mainExecutor (port : Int) : UdpCommandExecutor :=
  UdpCommandExecutor.new port "::".toList "#END#".toList "/tmp/command_executor.log".toList

/-- The loop of `trim`: while the string is not empty and its last character is a line
feed, a carriage return or a space, remove that character. Each round removes one
character, so `fuel` rounds are enough for a string of `fuel` characters. -/
def trimLoop : Nat → Str → Str
  | 0, result => result
  | fuel + 1, result =>
    match result.getLast? with
    | none => result
    | some c =>
      if c = '\n' ∨ c = '\r' ∨ c = ' ' then trimLoop fuel result.dropLast else result

/-- The private helper `trim`. -/
def trim (s : Str) : Str := trimLoop s.length s

/-- The method `parseMessage`: `some (outTimestamp, outCommand)` when it returns `true`
and `none` when it returns `false`. -/
def parseMessage (self : UdpCommandExecutor) (message : Str) : Option (Int × Str) :=
  match find message self.delimiter_ 0 with
  | none => none
  | some delimiterPos =>
    let timestampStr := substr message 0 delimiterPos
    let commandStartPos := delimiterPos + self.delimiter_.length
    match find message self.endMarker_ commandStartPos with
    | none => none
    | some endMarkerPos =>
      let commandStr := substr message commandStartPos (endMarkerPos - commandStartPos)
      match stoll timestampStr with
      | none => none
      | some outTimestamp => some (outTimestamp, trim commandStr)

/-- What the outside world answers during one iteration of the loop: the captured standard
output of a command given to `popen` (`none` when `popen` returns a null pipe), and whether
the log file can be opened for appending. -/
structure Env where
  popen : Str → Option Str
  logOpens : Bool

/-- The method `executeCommand`. -/
def executeCommand (env : Env) (cmd : Str) : Str :=
  match env.popen cmd with
  | none => "[Error opening pipe]".toList
  | some output => output

/-- The text that `logCommand` streams into the log file once it is open. -/
def logRecord (timestampVal : Int) (command output : Str) : Str :=
  "=====\n".toList
    ++ ("Timestamp: ".toList ++ decimal timestampVal ++ "\n".toList)
    ++ ("Command: ".toList ++ command ++ "\n".toList)
    ++ ("Output:\n".toList ++ output ++ "\n".toList)
    ++ "=====\n".toList

/-- The method `logCommand`, as a function on the content of the log file: the record is
appended when the file opens and nothing is written when it does not. -/
def logCommand (env : Env) (logFile : Str) (timestampVal : Int) (command output : Str) :
    Str :=
  if env.logOpens then logFile ++ logRecord timestampVal command output else logFile

/-- One call of `executeCommand` made by the loop, with the sequence value it was made
for and the output it returned. -/
structure ExecutionRecord where
  sequence : Int
  command : Str
  output : Str
  deriving DecidableEq, Repr

/-- The state the loop of `run` works on: the object, the content of the log file and the
calls of `executeCommand` made so far, oldest first. -/
structure State where
  self : UdpCommandExecutor
  logFile : Str
  executed : List ExecutionRecord
  deriving DecidableEq, Repr

/-- One iteration of the `while (true)` loop of `run` for a datagram that `recvfrom`
delivered with content `receivedData`. -/
def runIteration (env : Env) (st : State) (receivedData : Str) : State :=
  match parseMessage st.self receivedData with
  | none => st
  | some (timestampVal, commandStr) =>
    if timestampVal ≤ st.self.lastTimestampProcessed_ then st
    else
      let resultOutput := executeCommand env commandStr
      { self := { st.self with lastTimestampProcessed_ := timestampVal }
        logFile := logCommand env st.logFile timestampVal commandStr resultOutput
        executed := st.executed ++ [⟨timestampVal, commandStr, resultOutput⟩] }

/-- The loop of `run` over the datagrams received until `recvfrom` fails. -/
def runLoop (st : State) : List (Env × Str) → State
  | [] => st
  | (env, receivedData) :: rest => runLoop (runIteration env st receivedData) rest

/-- The state in which an executor enters the loop, given what the log file holds at that
moment: no command has been executed yet. -/
def initState (self : UdpCommandExecutor) (logFile : Str) : State :=
  { self := self, logFile := logFile, executed := [] }

/-- The log records of a list of executed commands, in order, as `logCommand` writes
them. -/
def renderLog : List ExecutionRecord → Str
  | [] => []
  | r :: rs => logRecord r.sequence r.command r.output ++ renderLog rs

/-- The invariant of the loop: the sequence values of the executed commands increase
strictly and none is above the watermark. -/
def GateInv (st : State) : Prop :=
  (st.executed.map ExecutionRecord.sequence).Pairwise (· < ·) ∧
  ∀ r ∈ st.executed, r.sequence ≤ st.self.lastTimestampProcessed_

/-- An environment in which every command prints `out` and the log file opens. -/
def constEnv (out : Str) : Env := { popen := fun _ => some out, logOpens := true }

/-! ## Decimal text and `stoll` -/

theorem digitChar_isdigit : ∀ d, d < 10 →
    isdigit (Nat.digitChar d) = true ∧ (Nat.digitChar d).toNat - 48 = d := by
  decide

theorem digitsValue_concat (ds : Str) (d : Char) :
    digitsValue (ds ++ [d]) = 10 * digitsValue ds + (d.toNat - 48) := by
  simp [digitsValue, List.foldl_append]

/-- The digits that `Nat.toDigitsCore` puts in front of the accumulator are a non-empty run
of decimal digits whose value is the number. -/
theorem toDigitsCore_spec : ∀ (fuel n : Nat) (acc : Str), n < fuel →
    ∃ ds : Str, Nat.toDigitsCore 10 fuel n acc = ds ++ acc ∧ ds ≠ [] ∧
      (∀ c ∈ ds, isdigit c = true) ∧ digitsValue ds = n := by
  intro fuel
  induction fuel with
  | zero => intro n acc h; omega
  | succ fuel ih =>
    intro n acc h
    have hd := digitChar_isdigit (n % 10) (Nat.mod_lt _ (by norm_num))
    by_cases hq : n / 10 = 0
    · refine ⟨[Nat.digitChar (n % 10)], ?_, by simp, ?_, ?_⟩
      · simp [Nat.toDigitsCore, hq]
      · intro c hc
        simp only [List.mem_singleton] at hc
        subst hc
        exact hd.1
      · have := digitsValue_concat [] (Nat.digitChar (n % 10))
        simp only [List.nil_append] at this
        rw [this, hd.2]
        simp only [digitsValue, List.foldl_nil]
        omega
    · obtain ⟨ds, h1, _, h3, h4⟩ := ih (n / 10) (Nat.digitChar (n % 10) :: acc) (by omega)
      refine ⟨ds ++ [Nat.digitChar (n % 10)], ?_, by simp, ?_, ?_⟩
      · simp [Nat.toDigitsCore, hq, h1]
      · intro c hc
        rcases List.mem_append.mp hc with hc | hc
        · exact h3 c hc
        · simp only [List.mem_singleton] at hc
          subst hc
          exact hd.1
      · rw [digitsValue_concat, h4, hd.2]
        omega

theorem toDigits_spec (n : Nat) :
    Nat.toDigits 10 n ≠ [] ∧ (∀ c ∈ Nat.toDigits 10 n, isdigit c = true) ∧
      digitsValue (Nat.toDigits 10 n) = n := by
  obtain ⟨ds, h1, h2, h3, h4⟩ := toDigitsCore_spec (n + 1) n [] (by omega)
  simp only [List.append_nil] at h1
  simp only [Nat.toDigits, h1]
  exact ⟨h2, h3, h4⟩

theorem takeWhile_run (p : Char → Bool) (ds junk : Str) (hds : ∀ c ∈ ds, p c = true)
    (hj : ∀ c ∈ junk.head?, p c = false) : (ds ++ junk).takeWhile p = ds := by
  induction ds with
  | nil =>
    cases junk with
    | nil => rfl
    | cons c t => simp [List.takeWhile_cons, hj c (by simp)]
  | cons d ds ih =>
    have hd : p d = true := hds d (by simp)
    simp only [List.cons_append, List.takeWhile_cons, hd, if_true]
    rw [ih (fun c hc => hds c (by simp [hc]))]

theorem dropWhile_run (p : Char → Bool) (ws rest : Str) (hws : ∀ c ∈ ws, p c = true)
    (hr : ∀ c ∈ rest.head?, p c = false) : (ws ++ rest).dropWhile p = rest := by
  induction ws with
  | nil =>
    cases rest with
    | nil => rfl
    | cons c t => simp [List.dropWhile_cons, hr c (by simp)]
  | cons d ws ih =>
    have hd : p d = true := hws d (by simp)
    simp only [List.cons_append, List.dropWhile_cons, hd, if_true]
    exact ih (fun c hc => hws c (by simp [hc]))

theorem isdigit_facts (c : Char) (h : isdigit c = true) :
    isspace c = false ∧ c ≠ '-' ∧ c ≠ '+' := by
  refine ⟨?_, ?_, ?_⟩
  · by_contra hs
    simp only [isspace, Bool.not_eq_false, Bool.decide_or, Bool.or_eq_true,
      decide_eq_true_eq] at hs
    rcases hs with hs | hs | hs | hs | hs | hs <;> subst hs <;> revert h <;> decide
  · rintro rfl; revert h; decide
  · rintro rfl; revert h; decide

/-- What `stoll` returns on the decimal text of a number, after leading white space and
before text that does not continue the digits: the number when it fits in 64 bits and
nothing when it does not. -/
theorem stoll_decimal (ws junk : Str) (n : Int) (hws : ∀ c ∈ ws, isspace c = true)
    (hj : ∀ c ∈ junk.head?, isdigit c = false) :
    stoll (ws ++ decimal n ++ junk) =
      if LLONG_MIN ≤ n ∧ n ≤ LLONG_MAX then some n else none := by
  obtain ⟨neg, m, hn, hdec⟩ : ∃ (neg : Bool) (m : Nat),
      n = (if neg then -(m : Int) else (m : Int)) ∧
      decimal n = (if neg then ['-'] else []) ++ Nat.toDigits 10 m := by
    cases n with
    | ofNat m => exact ⟨false, m, by simp, by simp [decimal]⟩
    | negSucc m => exact ⟨true, m + 1, by simp [Int.negSucc_eq], by simp [decimal]⟩
  obtain ⟨hne, hdig, hval⟩ := toDigits_spec m
  obtain ⟨d, ds, hds⟩ := List.exists_cons_of_ne_nil hne
  have hd := isdigit_facts d (hdig d (by simp [hds]))
  have hdrop : (ws ++ decimal n ++ junk).dropWhile isspace = decimal n ++ junk := by
    rw [List.append_assoc]
    apply dropWhile_run _ _ _ hws
    intro c hc
    cases neg
    · simp only [hdec, hds, Bool.false_eq_true, if_false, List.nil_append, List.cons_append,
        List.head?_cons, Option.mem_def, Option.some.injEq] at hc
      subst hc
      exact hd.1
    · simp only [hdec, if_true, List.cons_append, List.head?_cons, Option.mem_def,
        Option.some.injEq, List.nil_append] at hc
      subst hc
      decide
  have hsplit : splitSign (decimal n ++ junk) = (neg, Nat.toDigits 10 m ++ junk) := by
    cases neg
    · simp only [hdec, hds, Bool.false_eq_true, if_false, List.nil_append, List.cons_append]
      unfold splitSign
      split
      · rename_i h; exact absurd (List.cons.inj h).1 hd.2.1
      · rename_i h; exact absurd (List.cons.inj h).1 hd.2.2
      · rfl
    · simp [hdec, splitSign]
  have htake : (Nat.toDigits 10 m ++ junk).takeWhile isdigit = Nat.toDigits 10 m :=
    takeWhile_run _ _ _ hdig hj
  simp only [stoll, hdrop, hsplit, htake, hval, if_neg hne]
  rw [hn]

theorem stoll_decimal_self (n : Int) :
    stoll (decimal n) = if LLONG_MIN ≤ n ∧ n ≤ LLONG_MAX then some n else none := by
  have := stoll_decimal [] [] n (by simp) (by simp)
  simpa using this

/-- The decimal text of a number holds no colon. -/
theorem decimal_no_colon (n : Int) : ∀ c ∈ decimal n, c ≠ ':' := by
  intro c hc
  cases n with
  | ofNat m =>
    have := (toDigits_spec m).2.1 c (by simpa [decimal] using hc)
    rintro rfl; revert this; decide
  | negSucc m =>
    simp only [decimal, List.mem_cons] at hc
    rcases hc with rfl | hc
    · decide
    · have := (toDigits_spec (m + 1)).2.1 c hc
      rintro rfl; revert this; decide

/-! ## `find` -/

/-- When `pat` occurs nowhere in the text, the search finds nothing. -/
theorem findAux_none (pat : Str) : ∀ (s : Str) (i : Nat), ¬ pat <:+: s →
    findAux pat s i = none := by
  intro s
  induction s with
  | nil =>
    intro i h
    have hp : pat.isPrefixOf [] = false := by
      rw [Bool.eq_false_iff]
      intro hp
      exact h (List.isPrefixOf_iff_prefix.mp hp).isInfix
    simp [findAux, hp]
  | cons c t ih =>
    intro i h
    have hp : pat.isPrefixOf (c :: t) = false := by
      rw [Bool.eq_false_iff]
      intro hp
      exact h (List.isPrefixOf_iff_prefix.mp hp).isInfix
    have ht : ¬ pat <:+: t := fun ht => h (ht.trans (List.suffix_cons c t).isInfix)
    simp [findAux, hp, ih (i + 1) ht]

/-- When `pat` starts at the end of `pre` and at no earlier index, the search returns the
index just after `pre`. -/
theorem findAux_first (pat : Str) : ∀ (pre rest : Str) (i : Nat),
    (∀ j < pre.length, ¬ pat <+: (pre ++ rest).drop j) → pat <+: rest →
    findAux pat (pre ++ rest) i = some (i + pre.length) := by
  intro pre
  induction pre with
  | nil =>
    intro rest i _ hp
    have hp2 : pat.isPrefixOf rest = true := List.isPrefixOf_iff_prefix.mpr hp
    cases rest with
    | nil => simp [findAux, hp2]
    | cons c t => simp [findAux, hp2]
  | cons c pre ih =>
    intro rest i hfirst hp
    have h0 : pat.isPrefixOf (c :: (pre ++ rest)) = false := by
      rw [Bool.eq_false_iff]
      intro h
      exact hfirst 0 (by simp) (List.isPrefixOf_iff_prefix.mp h)
    have hrec := ih rest (i + 1) (fun j hj => by
      have := hfirst (j + 1) (by simpa using hj)
      simpa using this) hp
    have hstep : findAux pat (c :: (pre ++ rest)) i = findAux pat (pre ++ rest) (i + 1) := by
      simp [findAux, h0]
    rw [List.cons_append, hstep, hrec, List.length_cons]
    congr 1
    omega

/-- A successful search returns the index of the first place where `pat` starts. -/
theorem findAux_some (pat : Str) : ∀ (s : Str) (i k : Nat), findAux pat s i = some k →
    ∃ pre rest : Str, s = pre ++ rest ∧ k = i + pre.length ∧ pat <+: rest ∧
      ∀ j < pre.length, ¬ pat <+: s.drop j := by
  intro s
  induction s with
  | nil =>
    intro i k h
    by_cases hp : pat.isPrefixOf [] = true
    · simp only [findAux, hp, if_true, Option.some.injEq] at h
      exact ⟨[], [], rfl, by simp [h], List.isPrefixOf_iff_prefix.mp hp, by simp⟩
    · simp [findAux, hp] at h
  | cons c t ih =>
    intro i k h
    by_cases hp : pat.isPrefixOf (c :: t) = true
    · simp only [findAux, hp, if_true, Option.some.injEq] at h
      exact ⟨[], c :: t, rfl, by simp [h], List.isPrefixOf_iff_prefix.mp hp, by simp⟩
    · simp only [findAux, hp, Bool.false_eq_true, if_false] at h
      obtain ⟨pre, rest, h1, h2, h3, h4⟩ := ih (i + 1) k h
      refine ⟨c :: pre, rest, by simp [h1], by simp [h2]; omega, h3, ?_⟩
      intro j hj
      cases j with
      | zero =>
        intro h0
        exact hp (List.isPrefixOf_iff_prefix.mpr (by simpa using h0))
      | succ j =>
        have := h4 j (by simpa using hj)
        simpa using this

/-- What `parseMessage` does once the first delimiter is located: the text before it goes
to `stoll` and the text after it is searched for the end-marker. -/
theorem parseMessage_split (self : UdpCommandExecutor) (pre rest : Str)
    (hfirst : ∀ j < pre.length, ¬ self.delimiter_ <+: (pre ++ self.delimiter_ ++ rest).drop j) :
    parseMessage self (pre ++ self.delimiter_ ++ rest) =
      match findAux self.endMarker_ rest (pre.length + self.delimiter_.length) with
      | none => none
      | some endMarkerPos =>
        match stoll pre with
        | none => none
        | some t =>
          some (t, trim (rest.take (endMarkerPos - (pre.length + self.delimiter_.length)))) := by
  have hd : find (pre ++ self.delimiter_ ++ rest) self.delimiter_ 0 = some pre.length := by
    have := findAux_first self.delimiter_ pre (self.delimiter_ ++ rest) 0
      (by simpa [List.append_assoc] using hfirst) (List.prefix_append _ _)
    simpa [find, List.append_assoc] using this
  have he : find (pre ++ self.delimiter_ ++ rest) self.endMarker_
      (pre.length + self.delimiter_.length) =
      findAux self.endMarker_ rest (pre.length + self.delimiter_.length) := by
    have hlen : pre.length + self.delimiter_.length = (pre ++ self.delimiter_).length := by
      simp
    simp only [find, List.length_append]
    rw [if_pos (by omega), hlen, List.drop_left]
  have hpre : substr (pre ++ self.delimiter_ ++ rest) 0 pre.length = pre := by
    simp [substr, List.append_assoc, List.take_left]
  have hseg : ∀ n, substr (pre ++ self.delimiter_ ++ rest)
      (pre.length + self.delimiter_.length) n = rest.take n := by
    intro n
    have hlen : pre.length + self.delimiter_.length = (pre ++ self.delimiter_).length := by
      simp
    simp only [substr]
    rw [hlen, List.drop_left]
  simp only [parseMessage, hd, he, hpre, hseg]

/-- A frame whose first delimiter ends `pre` and whose first end-marker after it ends `seg`
decodes to what `stoll` makes of `pre` and to `seg` trimmed. -/
theorem parseMessage_frame (self : UdpCommandExecutor) (pre seg tail : Str)
    (hd : ∀ j < pre.length, ¬ self.delimiter_ <+:
      (pre ++ self.delimiter_ ++ (seg ++ self.endMarker_ ++ tail)).drop j)
    (he : ∀ j < seg.length, ¬ self.endMarker_ <+: (seg ++ self.endMarker_ ++ tail).drop j) :
    parseMessage self (pre ++ self.delimiter_ ++ (seg ++ self.endMarker_ ++ tail)) =
      (stoll pre).map (fun t => (t, trim seg)) := by
  rw [parseMessage_split self pre _ hd]
  have hf := findAux_first self.endMarker_ seg (self.endMarker_ ++ tail)
    (pre.length + self.delimiter_.length) (by simpa [List.append_assoc] using he)
    (List.prefix_append _ _)
  rw [← List.append_assoc] at hf
  rw [hf]
  have hseg : (seg ++ self.endMarker_ ++ tail).take
      (pre.length + self.delimiter_.length + seg.length -
        (pre.length + self.delimiter_.length)) = seg := by
    rw [Nat.add_sub_cancel_left, List.append_assoc, List.take_left]
  simp only [hseg]
  cases stoll pre <;> rfl

/-- A payload that `parseMessage` accepts is a frame: text, the first delimiter, a command
segment, the first end-marker after the delimiter, and a tail. -/
theorem parseMessage_some (self : UdpCommandExecutor) (payload : Str) (t : Int) (c : Str)
    (h : parseMessage self payload = some (t, c)) :
    ∃ pre seg tail : Str,
      payload = pre ++ self.delimiter_ ++ (seg ++ self.endMarker_ ++ tail) ∧
      (∀ j < pre.length, ¬ self.delimiter_ <+: payload.drop j) ∧
      (∀ j < seg.length, ¬ self.endMarker_ <+: (seg ++ self.endMarker_ ++ tail).drop j) ∧
      stoll pre = some t ∧ c = trim seg := by
  cases hfd : find payload self.delimiter_ 0 with
  | none => simp [parseMessage, hfd] at h
  | some k =>
    have hfd2 : findAux self.delimiter_ payload 0 = some k := by
      simpa [find] using hfd
    obtain ⟨pre, rest, hp, _, ⟨rest2, hrest⟩, hfirst⟩ := findAux_some _ _ _ _ hfd2
    subst hrest
    rw [← List.append_assoc] at hp
    subst hp
    have h0 := h
    rw [parseMessage_split self pre rest2 hfirst] at h
    cases hfe : findAux self.endMarker_ rest2 (pre.length + self.delimiter_.length) with
    | none => simp [hfe] at h
    | some e =>
      obtain ⟨seg, r2, hs, _, ⟨tail, hr2⟩, hfirst2⟩ := findAux_some _ _ _ _ hfe
      subst hr2
      rw [← List.append_assoc] at hs
      subst hs
      rw [parseMessage_frame self pre seg tail hfirst hfirst2] at h0
      cases hst : stoll pre with
      | none => simp [hst] at h0
      | some t2 =>
        simp only [hst, Option.map_some', Option.some.injEq, Prod.mk.injEq] at h0
        exact ⟨pre, seg, tail, rfl, hfirst, hfirst2, by rw [hst, h0.1], h0.2.symm⟩

/-! ## `trim` -/

/-- The loop of `trim` removes a suffix made of line feeds, carriage returns and spaces and
stops at a string that does not end in one of them. -/
theorem trimLoop_spec : ∀ (fuel : Nat) (r : Str), r.length ≤ fuel →
    ∃ suf : Str, r = trimLoop fuel r ++ suf ∧
      (∀ ch ∈ suf, ch = '\n' ∨ ch = '\r' ∨ ch = ' ') ∧
      ∀ ch ∈ (trimLoop fuel r).getLast?, ¬ (ch = '\n' ∨ ch = '\r' ∨ ch = ' ') := by
  intro fuel
  induction fuel with
  | zero =>
    intro r hr
    have : r = [] := List.length_eq_zero.mp (by omega)
    subst this
    exact ⟨[], by simp [trimLoop], by simp, by simp [trimLoop]⟩
  | succ fuel ih =>
    intro r hr
    cases hl : r.getLast? with
    | none =>
      have : r = [] := List.getLast?_eq_none_iff.mp hl
      subst this
      exact ⟨[], by simp [trimLoop], by simp, by simp [trimLoop]⟩
    | some c =>
      have hsplit : r.dropLast ++ [c] = r := List.dropLast_append_getLast? c hl
      by_cases hc : c = '\n' ∨ c = '\r' ∨ c = ' '
      · have hlen : r.dropLast.length ≤ fuel := by
          rw [List.length_dropLast]; omega
        obtain ⟨suf, h1, h2, h3⟩ := ih r.dropLast hlen
        have hstep : trimLoop (fuel + 1) r = trimLoop fuel r.dropLast := by
          simp only [trimLoop, hl, if_pos hc]
        refine ⟨suf ++ [c], ?_, ?_, ?_⟩
        · rw [hstep, ← List.append_assoc, ← h1, hsplit]
        · intro ch hch
          rcases List.mem_append.mp hch with hch | hch
          · exact h2 ch hch
          · simp only [List.mem_singleton] at hch
            subst hch
            exact hc
        · rw [hstep]
          exact h3
      · have hstep : trimLoop (fuel + 1) r = r := by
          simp only [trimLoop, hl, if_neg hc]
        refine ⟨[], by simp [hstep], by simp, ?_⟩
        rw [hstep, hl]
        intro ch hch
        simp only [Option.mem_def, Option.some.injEq] at hch
        subst hch
        exact hc

theorem trim_spec (s : Str) :
    ∃ suf : Str, s = trim s ++ suf ∧
      (∀ ch ∈ suf, ch = '\n' ∨ ch = '\r' ∨ ch = ' ') ∧
      ∀ ch ∈ (trim s).getLast?, ¬ (ch = '\n' ∨ ch = '\r' ∨ ch = ' ') :=
  trimLoop_spec s.length s (le_refl _)

/-- A string that does not end in a line feed, a carriage return or a space is returned
by `trim` as it is. -/
theorem trim_id (s : Str) (h : ∀ ch ∈ s.getLast?, ¬ (ch = '\n' ∨ ch = '\r' ∨ ch = ' ')) :
    trim s = s := by
  unfold trim
  cases hn : s.length with
  | zero => rfl
  | succ n =>
    cases hl : s.getLast? with
    | none => simp [trimLoop, hl]
    | some c =>
      have := h c (by simp [hl])
      simp only [trimLoop, hl, if_neg this]

theorem findAux_isSome (pat : Str) : ∀ (s : Str) (i : Nat), pat <:+: s →
    ∃ k, findAux pat s i = some k := by
  intro s
  induction s with
  | nil =>
    intro i h
    have hp : pat.isPrefixOf [] = true := by
      rw [List.isPrefixOf_iff_prefix]
      rw [List.infix_nil] at h
      rw [h]
    exact ⟨i, by simp [findAux, hp]⟩
  | cons c t ih =>
    intro i h
    by_cases hp : pat.isPrefixOf (c :: t) = true
    · exact ⟨i, by simp [findAux, hp]⟩
    · rcases List.infix_cons_iff.mp h with h1 | h1
      · exact absurd (List.isPrefixOf_iff_prefix.mpr h1) hp
      · obtain ⟨k, hk⟩ := ih (i + 1) h1
        exact ⟨k, by simp [findAux, hp, hk]⟩

/-- A payload without the delimiter is rejected by `parseMessage`. -/
theorem parseMessage_no_delimiter (self : UdpCommandExecutor) (payload : Str)
    (h : ¬ self.delimiter_ <:+: payload) : parseMessage self payload = none := by
  have hf : find payload self.delimiter_ 0 = none := by
    simpa [find] using findAux_none self.delimiter_ payload 0 h
  simp [parseMessage, hf]

/-- The iteration for a payload that parses to a sequence above the watermark. -/
theorem runIteration_of_above (env : Env) (st : State) (payload : Str) (s : Int) (cmd : Str)
    (h : parseMessage st.self payload = some (s, cmd))
    (hlt : st.self.lastTimestampProcessed_ < s) :
    runIteration env st payload =
      { self := { st.self with lastTimestampProcessed_ := s }
        logFile := logCommand env st.logFile s cmd (executeCommand env cmd)
        executed := st.executed ++ [⟨s, cmd, executeCommand env cmd⟩] } := by
  simp [runIteration, h, not_le.mpr hlt]

/-- The iteration for a payload that parses to a sequence not above the watermark. -/
theorem runIteration_of_not_above (env : Env) (st : State) (payload : Str) (s : Int) (cmd : Str)
    (h : parseMessage st.self payload = some (s, cmd))
    (hle : s ≤ st.self.lastTimestampProcessed_) :
    runIteration env st payload = st := by
  simp [runIteration, h, hle]

/-- When the text before a `"::"` holds no colon, that `"::"` is the first one. -/
theorem first_delimiter_of_no_colon (pre rest : Str) (h : ∀ c ∈ pre, c ≠ ':') :
    ∀ j < pre.length, ¬ "::".toList <+: (pre ++ rest).drop j := by
  intro j hj hp
  rw [List.drop_append_of_le_length (le_of_lt hj), List.drop_eq_getElem_cons hj] at hp
  have h2 : [':', ':'] <+: pre[j] :: (pre.drop (j + 1) ++ rest) := hp
  rw [List.cons_prefix_cons] at h2
  exact h pre[j] (List.getElem_mem hj) h2.1.symm

/-- The frames built from the decimal text of a number, with the delimiter and end-marker
of `main`: the result of `parseMessage` when the end-marker that closes the frame is the
first one after the delimiter. -/
theorem parseMessage_decimal_frame (port : Int) (n : Int) (seg tail : Str)
    (he : ∀ j < seg.length, ¬ "#END#".toList <+: (seg ++ "#END#".toList ++ tail).drop j) :
    parseMessage (mainExecutor port)
        (decimal n ++ "::".toList ++ (seg ++ "#END#".toList ++ tail)) =
      if LLONG_MIN ≤ n ∧ n ≤ LLONG_MAX then some (n, trim seg) else none := by
  have hd := first_delimiter_of_no_colon (decimal n)
    ("::".toList ++ (seg ++ "#END#".toList ++ tail)) (decimal_no_colon n)
  rw [← List.append_assoc] at hd
  have := parseMessage_frame (mainExecutor port) (decimal n) seg tail hd he
  rw [stoll_decimal_self] at this
  rw [show (mainExecutor port).delimiter_ = "::".toList from rfl,
    show (mainExecutor port).endMarker_ = "#END#".toList from rfl] at this
  rw [this]
  split <;> rfl

theorem runIteration_inv (env : Env) (st : State) (payload : Str) (h : GateInv st) :
    GateInv (runIteration env st payload) := by
  cases hp : parseMessage st.self payload with
  | none =>
    have : runIteration env st payload = st := by simp [runIteration, hp]
    rw [this]; exact h
  | some r =>
    obtain ⟨s, cmd⟩ := r
    by_cases hle : s ≤ st.self.lastTimestampProcessed_
    · rw [runIteration_of_not_above env st payload s cmd hp hle]; exact h
    · have hlt := not_le.mp hle
      rw [runIteration_of_above env st payload s cmd hp hlt]
      constructor
      · simp only [List.map_append, List.map_cons, List.map_nil]
        rw [List.pairwise_append]
        refine ⟨h.1, List.pairwise_singleton _ _, ?_⟩
        intro a ha b hb
        simp only [List.mem_singleton] at hb
        subst hb
        obtain ⟨r, hr, rfl⟩ := List.mem_map.mp ha
        exact lt_of_le_of_lt (h.2 r hr) hlt
      · intro r hr
        rcases List.mem_append.mp hr with hr | hr
        · exact le_of_lt (lt_of_le_of_lt (h.2 r hr) hlt)
        · simp only [List.mem_singleton] at hr
          subst hr
          exact le_refl _

theorem runLoop_inv : ∀ (events : List (Env × Str)) (st : State), GateInv st →
    GateInv (runLoop st events) := by
  intro events
  induction events with
  | nil => intro st h; exact h
  | cons e rest ih =>
    intro st h
    obtain ⟨env, payload⟩ := e
    exact ih _ (runIteration_inv env st payload h)

theorem renderLog_concat (rs : List ExecutionRecord) (r : ExecutionRecord) :
    renderLog (rs ++ [r]) = renderLog rs ++ logRecord r.sequence r.command r.output := by
  induction rs with
  | nil => simp [renderLog]
  | cons x xs ih => simp [renderLog, ih, List.append_assoc]

/-- The log file holds what it held at the start followed by the records of some of the
executed commands, in the order of their execution (all of them but those for which the
file did not open). -/
theorem runLoop_log (log0 : Str) : ∀ (events : List (Env × Str)) (st : State),
    (∃ logged : List ExecutionRecord, logged.Sublist st.executed ∧
      st.logFile = log0 ++ renderLog logged) →
    ∃ logged : List ExecutionRecord, logged.Sublist (runLoop st events).executed ∧
      (runLoop st events).logFile = log0 ++ renderLog logged := by
  intro events
  induction events with
  | nil => intro st h; exact h
  | cons e rest ih =>
    intro st h
    obtain ⟨env, payload⟩ := e
    apply ih
    obtain ⟨logged, hsub, hlog⟩ := h
    cases hp : parseMessage st.self payload with
    | none =>
      have : runIteration env st payload = st := by simp [runIteration, hp]
      rw [this]; exact ⟨logged, hsub, hlog⟩
    | some r =>
      obtain ⟨s, cmd⟩ := r
      by_cases hle : s ≤ st.self.lastTimestampProcessed_
      · rw [runIteration_of_not_above env st payload s cmd hp hle]; exact ⟨logged, hsub, hlog⟩
      · rw [runIteration_of_above env st payload s cmd hp (not_le.mp hle)]
        cases ho : env.logOpens with
        | false =>
          refine ⟨logged, hsub.trans (List.sublist_append_left _ _), ?_⟩
          simp [logCommand, ho, hlog]
        | true =>
          refine ⟨logged ++ [⟨s, cmd, executeCommand env cmd⟩],
            hsub.append (List.Sublist.refl _), ?_⟩
          simp only [logCommand, ho, if_true, renderLog_concat, hlog, List.append_assoc]

/-! ## The claims -/

/-- C6. Missing delimiter: a payload in which the delimiter does not occur makes
`parseMessage` fail, and the loop iteration that receives it changes nothing: the
watermark, the record of executed commands and the log file are as before. -/
theorem missing_delimiter_ignored (env : Env) (st : State) (payload : Str)
    (h : ¬ st.self.delimiter_ <:+: payload) :
    parseMessage st.self payload = none ∧ runIteration env st payload = st := by
  have hp := parseMessage_no_delimiter st.self payload h
  exact ⟨hp, by simp [runIteration, hp]⟩

theorem missing_delimiter_ignored_witness :
    ¬ (initState (mainExecutor 7755) []).self.delimiter_ <:+: "echo hi#END#".toList ∧
    (parseMessage (initState (mainExecutor 7755) []).self "echo hi#END#".toList = none ∧
      runIteration (constEnv "hi\n".toList) (initState (mainExecutor 7755) [])
        "echo hi#END#".toList = initState (mainExecutor 7755) []) :=
  ⟨by decide, missing_delimiter_ignored _ _ _ (by decide)⟩

/-- C9. End-marker searched only after the delimiter: when `pre` is the text before the
first occurrence of the delimiter and the end-marker does not occur in the text `rest` that
follows that occurrence, `parseMessage` fails, whatever `pre` holds (an earlier end-marker,
a numeric or a non-numeric sequence text). -/
theorem end_marker_searched_after_delimiter (self : UdpCommandExecutor) (pre rest : Str)
    (hfirst : ∀ j < pre.length,
      ¬ self.delimiter_ <+: (pre ++ self.delimiter_ ++ rest).drop j)
    (hno : ¬ self.endMarker_ <:+: rest) :
    parseMessage self (pre ++ self.delimiter_ ++ rest) = none := by
  rw [parseMessage_split self pre rest hfirst, findAux_none _ _ _ hno]

theorem end_marker_searched_after_delimiter_witness :
    (∀ j < "#END#5".toList.length, ¬ (mainExecutor 7755).delimiter_ <+:
      ("#END#5".toList ++ (mainExecutor 7755).delimiter_ ++ "cmd".toList).drop j) ∧
    ¬ (mainExecutor 7755).endMarker_ <:+: "cmd".toList ∧
    parseMessage (mainExecutor 7755)
      ("#END#5".toList ++ (mainExecutor 7755).delimiter_ ++ "cmd".toList) = none :=
  ⟨by decide, by decide, end_marker_searched_after_delimiter _ _ _ (by decide) (by decide)⟩

/-- C1. Sequence gate step: for a payload that parses to `(s, cmd)`, one iteration of the
loop executes `cmd` exactly once (one record is added to the executed commands) and sets the
watermark to `s` if and only if `s` is greater than the watermark; when `s` is not greater,
the whole state (watermark, executed commands, log file) is unchanged. -/
theorem sequence_gate_step (env : Env) (st : State) (payload : Str) (s : Int) (cmd : Str)
    (h : parseMessage st.self payload = some (s, cmd)) :
    (((runIteration env st payload).executed =
          st.executed ++ [⟨s, cmd, executeCommand env cmd⟩] ∧
        (runIteration env st payload).self.lastTimestampProcessed_ = s) ↔
      st.self.lastTimestampProcessed_ < s) ∧
    (s ≤ st.self.lastTimestampProcessed_ → runIteration env st payload = st) := by
  by_cases hle : s ≤ st.self.lastTimestampProcessed_
  · have hst : runIteration env st payload = st := runIteration_of_not_above env st payload s cmd h hle
    refine ⟨⟨?_, fun hlt => absurd hle (not_le.mpr hlt)⟩, fun _ => hst⟩
    rintro ⟨hex, _⟩
    rw [hst] at hex
    have := congrArg List.length hex
    simp at this
  · refine ⟨⟨fun _ => not_le.mp hle, fun hlt => ?_⟩, fun h2 => absurd h2 hle⟩
    rw [runIteration_of_above env st payload s cmd h hlt]
    exact ⟨rfl, rfl⟩

theorem sequence_gate_step_witness :
    parseMessage (initState (mainExecutor 7755) []).self "6::echo bye#END#".toList =
      some (6, "echo bye".toList) ∧
    ((((runIteration (constEnv "bye\n".toList) (initState (mainExecutor 7755) [])
            "6::echo bye#END#".toList).executed =
          (initState (mainExecutor 7755) []).executed ++
            [⟨6, "echo bye".toList,
              executeCommand (constEnv "bye\n".toList) "echo bye".toList⟩] ∧
        (runIteration (constEnv "bye\n".toList) (initState (mainExecutor 7755) [])
            "6::echo bye#END#".toList).self.lastTimestampProcessed_ = 6) ↔
      (initState (mainExecutor 7755) []).self.lastTimestampProcessed_ < 6) ∧
    (6 ≤ (initState (mainExecutor 7755) []).self.lastTimestampProcessed_ →
      runIteration (constEnv "bye\n".toList) (initState (mainExecutor 7755) [])
        "6::echo bye#END#".toList = initState (mainExecutor 7755) [])) :=
  ⟨by decide, sequence_gate_step _ _ _ _ _ (by decide)⟩

/-- C8. Fresh gate: on a freshly constructed executor (whatever the constructor's
arguments), a first payload that parses to a sequence `s ≥ 0`, zero included, is admitted:
its command is executed, as the only execution so far, and the watermark becomes `s`. -/
theorem fresh_gate_admits_nonnegative (env : Env) (port : Int)
    (delimiter endMarker logFilePath logFile payload : Str) (s : Int) (cmd : Str)
    (h : parseMessage (UdpCommandExecutor.new port delimiter endMarker logFilePath) payload =
      some (s, cmd))
    (hs : 0 ≤ s) :
    (runIteration env
        (initState (UdpCommandExecutor.new port delimiter endMarker logFilePath) logFile)
        payload).executed = [⟨s, cmd, executeCommand env cmd⟩] ∧
    (runIteration env
        (initState (UdpCommandExecutor.new port delimiter endMarker logFilePath) logFile)
        payload).self.lastTimestampProcessed_ = s := by
  have hlt : (initState (UdpCommandExecutor.new port delimiter endMarker logFilePath)
      logFile).self.lastTimestampProcessed_ < s := by
    show (-1 : Int) < s
    omega
  rw [runIteration_of_above env _ payload s cmd h hlt]
  exact ⟨rfl, rfl⟩

theorem fresh_gate_admits_nonnegative_witness :
    parseMessage (UdpCommandExecutor.new 7755 "::".toList "#END#".toList "/tmp/x".toList)
      "0::echo hi#END#".toList = some (0, "echo hi".toList) ∧
    (0 : Int) ≤ 0 ∧
    ((runIteration (constEnv "hi\n".toList)
        (initState (UdpCommandExecutor.new 7755 "::".toList "#END#".toList "/tmp/x".toList) [])
        "0::echo hi#END#".toList).executed =
      [⟨0, "echo hi".toList, executeCommand (constEnv "hi\n".toList) "echo hi".toList⟩] ∧
    (runIteration (constEnv "hi\n".toList)
        (initState (UdpCommandExecutor.new 7755 "::".toList "#END#".toList "/tmp/x".toList) [])
        "0::echo hi#END#".toList).self.lastTimestampProcessed_ = 0) :=
  ⟨by decide, by decide,
    fresh_gate_admits_nonnegative _ _ _ _ _ _ _ _ _ (by decide) (by decide)⟩

/-- C10. 64-bit range of the sequence: for every integer `n`, the payload made of the
decimal text of `n` followed by `"::cmd#END#"` decodes to sequence `n` and command `"cmd"`
when `-2^63 ≤ n ≤ 2^63 - 1`, and is rejected when `n` is outside that range. -/
theorem sequence_range_64bit (port : Int) (n : Int) :
    parseMessage (mainExecutor port) (decimal n ++ "::cmd#END#".toList) =
      if -(2 ^ 63 : Int) ≤ n ∧ n ≤ 2 ^ 63 - 1 then some (n, "cmd".toList) else none := by
  have he : ∀ j < "cmd".toList.length,
      ¬ "#END#".toList <+: ("cmd".toList ++ "#END#".toList ++ []).drop j := by decide
  have := parseMessage_decimal_frame port n "cmd".toList [] he
  have hp : decimal n ++ "::".toList ++ ("cmd".toList ++ "#END#".toList ++ []) =
      decimal n ++ "::cmd#END#".toList := by
    rw [List.append_assoc]; rfl
  rw [hp] at this
  rw [this]
  rfl

/-- C4, as the claim states it, fails: the command text `"#END"` holds neither `"::"` nor
`"#END#"` and does not end in CR, LF or space, yet the frame built from sequence `5` and
that command decodes to the empty command, because the end-marker is found across the
end of the command and the start of the closing end-marker. -/
theorem frame_round_trip_counterexample :
    (-(2 ^ 63 : Int) ≤ 5 ∧ (5 : Int) ≤ 2 ^ 63 - 1) ∧
    ¬ "::".toList <:+: "#END".toList ∧
    ¬ "#END#".toList <:+: "#END".toList ∧
    (∀ ch ∈ "#END".toList.getLast?, ¬ (ch = '\r' ∨ ch = '\n' ∨ ch = ' ')) ∧
    parseMessage (mainExecutor 7755)
      (decimal 5 ++ "::".toList ++ "#END".toList ++ "#END#".toList) = some (5, []) ∧
    parseMessage (mainExecutor 7755)
      (decimal 5 ++ "::".toList ++ "#END".toList ++ "#END#".toList) ≠
        some (5, "#END".toList) := by
  refine ⟨by decide, by decide, by decide, by decide, by decide, by decide⟩

/-- C4, amended. Frame round trip: for every 64-bit signed integer `n` and every command
text `c` that does not contain `"::"`, in which no occurrence of `"#END#"` starts, not even
one that the closing end-marker would complete (`"#END#"` is not a substring of
`c ++ "#END"`), and that does not end in CR, LF or space, `parseMessage` applied to
`decimal n ++ "::" ++ c ++ "#END#"` returns exactly `(n, c)`. -/
theorem frame_round_trip (port : Int) (n : Int) (c : Str)
    (hlo : -(2 ^ 63 : Int) ≤ n) (hhi : n ≤ 2 ^ 63 - 1)
    (_hdelim : ¬ "::".toList <:+: c)
    (hend : ¬ "#END#".toList <:+: c ++ "#END".toList)
    (hlast : ∀ ch ∈ c.getLast?, ¬ (ch = '\r' ∨ ch = '\n' ∨ ch = ' ')) :
    parseMessage (mainExecutor port) (decimal n ++ "::".toList ++ c ++ "#END#".toList) =
      some (n, c) := by
  have he : ∀ j < c.length, ¬ "#END#".toList <+: (c ++ "#END#".toList ++ []).drop j := by
    intro j hj hp
    apply hend
    have hsplit : c ++ "#END#".toList ++ [] = (c ++ "#END".toList) ++ ['#'] := by
      simp
    have hj2 : j ≤ (c ++ "#END".toList).length := by
      rw [List.length_append]; omega
    rw [hsplit, List.drop_append_of_le_length hj2] at hp
    have hlen : "#END#".toList.length ≤ ((c ++ "#END".toList).drop j).length := by
      rw [List.length_drop, List.length_append]
      show 5 ≤ c.length + 4 - j
      omega
    have hpre : "#END#".toList <+: (c ++ "#END".toList).drop j :=
      List.prefix_of_prefix_length_le hp (List.prefix_append _ _) hlen
    exact hpre.isInfix.trans (List.drop_suffix j _).isInfix
  have := parseMessage_decimal_frame port n c [] he
  have hp : decimal n ++ "::".toList ++ (c ++ "#END#".toList ++ []) =
      decimal n ++ "::".toList ++ c ++ "#END#".toList := by
    simp
  rw [hp] at this
  have hrange : LLONG_MIN ≤ n ∧ n ≤ LLONG_MAX := ⟨hlo, hhi⟩
  have htrim : trim c = c :=
    trim_id c (fun ch hch hc => hlast ch hch (by tauto))
  rw [this, if_pos hrange, htrim]

theorem frame_round_trip_witness :
    (-(2 ^ 63 : Int) ≤ -42 ∧ (-42 : Int) ≤ 2 ^ 63 - 1) ∧
    ¬ "::".toList <:+: " echo  hi\t".toList ∧
    ¬ "#END#".toList <:+: " echo  hi\t".toList ++ "#END".toList ∧
    (∀ ch ∈ " echo  hi\t".toList.getLast?, ¬ (ch = '\r' ∨ ch = '\n' ∨ ch = ' ')) ∧
    parseMessage (mainExecutor 7755)
      (decimal (-42) ++ "::".toList ++ " echo  hi\t".toList ++ "#END#".toList) =
        some (-42, " echo  hi\t".toList) :=
  ⟨by decide, by decide, by decide, by decide,
    frame_round_trip 7755 (-42) " echo  hi\t".toList (by decide) (by decide) (by decide)
      (by decide) (by decide)⟩

/-- C3, as the claim states it, fails: in the claim's own example `"12x::cmd#END#"` the
text before the delimiter has trailing junk, and in `" 12::cmd#END#"` it has leading white
space, yet `parseMessage` succeeds on both and returns sequence `12`. -/
theorem strict_sequence_parsing_counterexample :
    parseMessage (mainExecutor 7755) "12x::cmd#END#".toList = some (12, "cmd".toList) ∧
    parseMessage (mainExecutor 7755) " 12::cmd#END#".toList = some (12, "cmd".toList) := by
  constructor <;> decide

/-- C3, amended. Sequence parsing: for every payload in which `pre` is the text before the
first `"::"` and `"#END#"` occurs in the text after it, `parseMessage` fails when `pre`,
after its leading white space and one optional sign, does not start with a decimal digit;
and it succeeds with sequence `n` when `pre` is white space (possibly none), then the
decimal text of a 64-bit integer `n`, then any text that does not start with a digit. -/
theorem sequence_text_parsing (port : Int) (pre rest : Str)
    (hfirst : ∀ j < pre.length, ¬ "::".toList <+: (pre ++ "::".toList ++ rest).drop j)
    (hend : "#END#".toList <:+: rest) :
    ((∀ ch ∈ (splitSign (pre.dropWhile isspace)).2.head?, isdigit ch = false) →
      parseMessage (mainExecutor port) (pre ++ "::".toList ++ rest) = none) ∧
    (∀ (ws junk : Str) (n : Int), pre = ws ++ decimal n ++ junk →
      (∀ ch ∈ ws, isspace ch = true) → -(2 ^ 63 : Int) ≤ n → n ≤ 2 ^ 63 - 1 →
      (∀ ch ∈ junk.head?, isdigit ch = false) →
      ∃ c, parseMessage (mainExecutor port) (pre ++ "::".toList ++ rest) = some (n, c)) := by
  have hsplit := parseMessage_split (mainExecutor port) pre rest hfirst
  obtain ⟨k, hk⟩ := findAux_isSome "#END#".toList rest
    (pre.length + (mainExecutor port).delimiter_.length) hend
  rw [show (mainExecutor port).delimiter_ = "::".toList from rfl,
    show (mainExecutor port).endMarker_ = "#END#".toList from rfl] at hsplit
  rw [show (mainExecutor port).delimiter_ = "::".toList from rfl] at hk
  rw [hk] at hsplit
  constructor
  · intro hnodigit
    have htake : (splitSign (pre.dropWhile isspace)).2.takeWhile isdigit = [] :=
      takeWhile_run isdigit [] _ (by simp) hnodigit
    have hst : stoll pre = none := by
      simp only [stoll, htake, if_true]
    rw [hsplit, hst]
  · intro ws junk n hpre hws hlo hhi hjunk
    have hst : stoll pre = some n := by
      rw [hpre, stoll_decimal ws junk n hws hjunk]
      exact if_pos ⟨hlo, hhi⟩
    rw [hsplit, hst]
    exact ⟨_, rfl⟩

theorem sequence_text_parsing_witness :
    (∀ j < "x12".toList.length,
      ¬ "::".toList <+: ("x12".toList ++ "::".toList ++ "cmd#END#".toList).drop j) ∧
    "#END#".toList <:+: "cmd#END#".toList ∧
    (∀ ch ∈ (splitSign ("x12".toList.dropWhile isspace)).2.head?, isdigit ch = false) ∧
    parseMessage (mainExecutor 7755) ("x12".toList ++ "::".toList ++ "cmd#END#".toList) =
      none :=
  ⟨by decide, by decide, by decide,
    (sequence_text_parsing 7755 "x12".toList "cmd#END#".toList (by decide) (by decide)).1
      (by decide)⟩

/-- C5. Trailing trim: a payload that `parseMessage` accepts with command `c` is a frame
`pre ++ delimiter ++ seg ++ endMarker ++ tail`, cut at the first delimiter and at the first
end-marker after it, in which `c` is the longest prefix of the raw segment `seg` that does
not end in CR, LF or space: `seg = c ++ suf` where `suf` holds only those three characters,
`c` does not end in one of them, and no prefix of `seg` that does not end in one of them is
longer than `c`. Everything in front of `suf` is thus kept as it is. -/
theorem trailing_trim (self : UdpCommandExecutor) (payload : Str) (s : Int) (c : Str)
    (h : parseMessage self payload = some (s, c)) :
    ∃ pre seg tail suf : Str,
      payload = pre ++ self.delimiter_ ++ seg ++ self.endMarker_ ++ tail ∧
      (∀ j < pre.length, ¬ self.delimiter_ <+: payload.drop j) ∧
      (∀ j < seg.length, ¬ self.endMarker_ <+: (seg ++ self.endMarker_ ++ tail).drop j) ∧
      seg = c ++ suf ∧
      (∀ ch ∈ suf, ch = '\r' ∨ ch = '\n' ∨ ch = ' ') ∧
      (∀ ch ∈ c.getLast?, ¬ (ch = '\r' ∨ ch = '\n' ∨ ch = ' ')) ∧
      ∀ p : Str, p <+: seg → (∀ ch ∈ p.getLast?, ¬ (ch = '\r' ∨ ch = '\n' ∨ ch = ' ')) →
        p.length ≤ c.length := by
  obtain ⟨pre, seg, tail, hp, hd, he, _, hc⟩ := parseMessage_some self payload s c h
  obtain ⟨suf, h1, h2, h3⟩ := trim_spec seg
  rw [← hc] at h1 h3
  refine ⟨pre, seg, tail, suf, by rw [hp]; simp [List.append_assoc], hd, he, h1,
    fun ch hch => by have := h2 ch hch; tauto,
    fun ch hch hx => h3 ch hch (by tauto), ?_⟩
  intro p hps hplast
  by_contra hlen
  have hcp : c <+: p := by
    apply List.prefix_of_prefix_length_le (h1 ▸ List.prefix_append c suf) hps
    omega
  obtain ⟨q, hq⟩ := hcp
  subst hq
  have hqne : q ≠ [] := by
    rintro rfl
    simp at hlen
  have hqs : q <+: suf := by
    rw [h1] at hps
    exact (List.prefix_append_right_inj c).mp hps
  obtain ⟨x, hx⟩ : ∃ x, q.getLast? = some x := by
    cases hq : q.getLast? with
    | none => exact absurd (List.getLast?_eq_none_iff.mp hq) hqne
    | some x => exact ⟨x, rfl⟩
  have hx2 : x ∈ (c ++ q).getLast? := by
    rw [List.getLast?_append_of_ne_nil c hqne]
    exact hx
  have hxs : x ∈ suf := hqs.subset (List.mem_of_getLast?_eq_some hx)
  exact hplast x hx2 (by have := h2 x hxs; tauto)

theorem trailing_trim_witness :
    parseMessage (mainExecutor 7755) "1::echo hi  \r\n#END#".toList =
      some (1, "echo hi".toList) ∧
    ∃ pre seg tail suf : Str,
      "1::echo hi  \r\n#END#".toList =
        pre ++ (mainExecutor 7755).delimiter_ ++ seg ++ (mainExecutor 7755).endMarker_ ++
          tail ∧
      (∀ j < pre.length,
        ¬ (mainExecutor 7755).delimiter_ <+: "1::echo hi  \r\n#END#".toList.drop j) ∧
      (∀ j < seg.length, ¬ (mainExecutor 7755).endMarker_ <+:
        (seg ++ (mainExecutor 7755).endMarker_ ++ tail).drop j) ∧
      seg = "echo hi".toList ++ suf ∧
      (∀ ch ∈ suf, ch = '\r' ∨ ch = '\n' ∨ ch = ' ') ∧
      (∀ ch ∈ "echo hi".toList.getLast?, ¬ (ch = '\r' ∨ ch = '\n' ∨ ch = ' ')) ∧
      ∀ p : Str, p <+: seg → (∀ ch ∈ p.getLast?, ¬ (ch = '\r' ∨ ch = '\n' ∨ ch = ' ')) →
        p.length ≤ "echo hi".toList.length :=
  ⟨by decide, trailing_trim (mainExecutor 7755) _ 1 "echo hi".toList (by decide)⟩

/-- C2. At-most-once execution: for every finite list of payloads that a freshly
constructed executor processes in order, the sequence values of the executed commands are
strictly increasing, hence without repetition; the log file holds, after what it held
before, the records of executed commands only (those for which the file opened), in the
order of execution, so the logged sequence values are strictly increasing too; and the
payloads `"5::echo hi#END#"` then `"5::echo bye#END#"` yield exactly one execution, for
sequence `5` with command `"echo hi"`. -/
theorem at_most_once_execution (port : Int) (delimiter endMarker logFilePath logFile : Str)
    (events : List (Env × Str)) :
    ((runLoop (initState (UdpCommandExecutor.new port delimiter endMarker logFilePath) logFile)
        events).executed.map ExecutionRecord.sequence).Pairwise (· < ·) ∧
    ((runLoop (initState (UdpCommandExecutor.new port delimiter endMarker logFilePath) logFile)
        events).executed.map ExecutionRecord.sequence).Nodup ∧
    (∃ logged : List ExecutionRecord,
      logged.Sublist (runLoop
        (initState (UdpCommandExecutor.new port delimiter endMarker logFilePath) logFile)
        events).executed ∧
      (runLoop (initState (UdpCommandExecutor.new port delimiter endMarker logFilePath) logFile)
        events).logFile = logFile ++ renderLog logged ∧
      (logged.map ExecutionRecord.sequence).Pairwise (· < ·)) ∧
    (∀ env1 env2 : Env,
      (runLoop (initState (mainExecutor port) logFile)
        [(env1, "5::echo hi#END#".toList), (env2, "5::echo bye#END#".toList)]).executed =
      [⟨5, "echo hi".toList, executeCommand env1 "echo hi".toList⟩]) := by
  have hinit : GateInv
      (initState (UdpCommandExecutor.new port delimiter endMarker logFilePath) logFile) :=
    ⟨by simp [initState], by simp [initState]⟩
  have hinv := runLoop_inv events _ hinit
  refine ⟨hinv.1, hinv.1.imp (fun h => ne_of_lt h), ?_, ?_⟩
  · obtain ⟨logged, hsub, hlog⟩ := runLoop_log logFile events
      (initState (UdpCommandExecutor.new port delimiter endMarker logFilePath) logFile)
      ⟨[], by simp, by simp [initState, renderLog]⟩
    exact ⟨logged, hsub, hlog, hinv.1.sublist (hsub.map _)⟩
  · intro env1 env2
    have h1 : parseMessage (initState (mainExecutor port) logFile).self
        "5::echo hi#END#".toList = some (5, "echo hi".toList) := by rfl
    have hlt : (initState (mainExecutor port) logFile).self.lastTimestampProcessed_ < 5 := by
      show (-1 : Int) < 5
      decide
    simp only [runLoop]
    rw [runIteration_of_above env1 _ _ 5 _ h1 hlt]
    rw [runIteration_of_not_above env2 _ "5::echo bye#END#".toList 5 "echo bye".toList (by rfl)
      (le_refl _)]
    rfl

/-- C7, as the claim states it, fails: when the log file cannot be opened, an admitted
payload is executed but no text is appended to the log. -/
theorem audit_record_layout_counterexample :
    parseMessage (initState (mainExecutor 7755) "old\n".toList).self
      "5::echo hi#END#".toList = some (5, "echo hi".toList) ∧
    (initState (mainExecutor 7755) "old\n".toList).self.lastTimestampProcessed_ < 5 ∧
    (runIteration { popen := fun _ => some "hi\n".toList, logOpens := false }
      (initState (mainExecutor 7755) "old\n".toList) "5::echo hi#END#".toList).executed =
      [⟨5, "echo hi".toList, "hi\n".toList⟩] ∧
    (runIteration { popen := fun _ => some "hi\n".toList, logOpens := false }
      (initState (mainExecutor 7755) "old\n".toList) "5::echo hi#END#".toList).logFile ≠
      "old\n".toList ++
        ("=====\nTimestamp: ".toList ++ decimal 5 ++ "\nCommand: ".toList ++ "echo hi".toList ++
          "\nOutput:\n".toList ++ "hi\n".toList ++ "\n=====\n".toList) := by
  refine ⟨by decide, by decide, by decide, by decide⟩

/-- C7, amended. Audit record layout: for every admitted payload with sequence `s` and
post-trim command `c`, as `parseMessage` returns them, and with `o` the output that
`executeCommand` returns for `c`, the text appended to the log file is exactly
`"=====\nTimestamp: " ++ decimal s ++ "\nCommand: " ++ c ++ "\nOutput:\n" ++ o ++ "\n=====\n"`
when the log file opens; when it does not open, nothing is appended. -/
theorem audit_record_layout (env : Env) (st : State) (payload : Str) (s : Int) (c : Str)
    (h : parseMessage st.self payload = some (s, c))
    (hlt : st.self.lastTimestampProcessed_ < s) :
    (runIteration env st payload).logFile =
      if env.logOpens then
        st.logFile ++
          ("=====\nTimestamp: ".toList ++ decimal s ++ "\nCommand: ".toList ++ c ++
            "\nOutput:\n".toList ++ executeCommand env c ++ "\n=====\n".toList)
      else st.logFile := by
  rw [runIteration_of_above env st payload s c h hlt]
  cases ho : env.logOpens <;> simp [logCommand, logRecord, ho, List.append_assoc]

theorem audit_record_layout_witness :
    parseMessage (initState (mainExecutor 7755) "old\n".toList).self
      "5::echo hi#END#".toList = some (5, "echo hi".toList) ∧
    (initState (mainExecutor 7755) "old\n".toList).self.lastTimestampProcessed_ < 5 ∧
    (runIteration (constEnv "hi\n".toList) (initState (mainExecutor 7755) "old\n".toList)
      "5::echo hi#END#".toList).logFile =
      if (constEnv "hi\n".toList).logOpens then
        (initState (mainExecutor 7755) "old\n".toList).logFile ++
          ("=====\nTimestamp: ".toList ++ decimal 5 ++ "\nCommand: ".toList ++
            "echo hi".toList ++ "\nOutput:\n".toList ++
            executeCommand (constEnv "hi\n".toList) "echo hi".toList ++ "\n=====\n".toList)
      else (initState (mainExecutor 7755) "old\n".toList).logFile :=
  ⟨by decide, by decide,
    audit_record_layout (constEnv "hi\n".toList) (initState (mainExecutor 7755) "old\n".toList)
      "5::echo hi#END#".toList 5 "echo hi".toList (by decide) (by decide)⟩

end UdpCmd
